import Mathlib

/-!
Verification of the core logic of the Naruto hand-sign recognition web app:
the debounced sequence state machine (`web/app/play/page.tsx`), the KNN
classifier and hand-landmark normalizer (`utils/knn.ts`), and the YOLO
detection decoder with non-maximum suppression (`utils/yolo.ts`).

Numbers are modelled exactly: JavaScript floats become rationals (or reals
where the source takes a square root), and a JavaScript division whose
denominator is zero — which produces `NaN` or `Infinity` — is modelled by
`Option`, with `none` standing for the non-finite result.
-/

/-! ## Sequence state machine (`web/app/play/page.tsx`, `predictLoop`)

The game-progress logic keeps three mutable refs: `currentStepRef`,
`lastSign` and `lastSignTime`.  They are bundled into one state record and
the body of the `--- GAME PROGRESS LOGIC ---` block becomes one step
function, evaluated once per classification tick with the classified label
`result` and the timestamp `now` (`performance.now()`, modelled as a
rational number of milliseconds). -/

/-- ASCII uppercase of one character, as JavaScript `toUpperCase` acts on
the label alphabet of this app (all labels are ASCII letters). -/
def jsToUpperChar (c : Char) : Char :=
  if 'a' ≤ c ∧ c ≤ 'z' then Char.ofNat (c.toNat - 32) else c

/-- JavaScript `String.prototype.toUpperCase` restricted to ASCII input. -/
def jsToUpper (s : String) : String := ⟨s.data.map jsToUpperChar⟩

structure GameState where
  step : Nat
  lastSign : String
  lastSignTime : ℚ
  deriving Repr, DecidableEq

/-- `const CONFIRM_DELAY = 600; // 600ms hold to confirm` -/
def CONFIRM_DELAY : ℚ := 600

/-- `const [targetSequence] = useState(["SNAKE", "RAM", "MONKEY", "BOAR", "HORSE", "TIGER"])` -/
def targetSequence : List String :=
  ["SNAKE", "RAM", "MONKEY", "BOAR", "HORSE", "TIGER"]

/-- Initial refs: `currentStepRef = useRef(0)`, `lastSign = useRef("Idle")`,
`lastSignTime = useRef(0)`. -/
def initState : GameState := { step := 0, lastSign := "Idle", lastSignTime := 0 }

/-- One evaluation of the game-progress block of `predictLoop`
(`page.tsx` lines 583–616).  `jsToUpper` models JavaScript
`toUpperCase` (all labels involved are ASCII).  The expected-label
comparison is case-insensitive; the held-label comparisons
(`lastSign.current !== result`) are exact string equality, as in the
source. -/
def evalStep (seq : List String) (result : String) (now : ℚ) (s : GameState) : GameState :=
  if h : s.step < seq.length then
    let targetSign := seq.get ⟨s.step, h⟩
    if jsToUpper result = jsToUpper targetSign then
      -- "If this is a new hold on the correct sign"
      let s1 := if s.lastSign ≠ result then
        { s with lastSignTime := now, lastSign := result } else s
      -- "Check duration": holdDuration = now - lastSignTime
      if now - s1.lastSignTime > CONFIRM_DELAY then
        -- "SUCCESS! Move step" and reset the hold refs
        { step := s1.step + 1, lastSign := "Idle", lastSignTime := 0 }
      else s1
    else
      -- "Wrong sign or Idle resets the hold timer"
      if result ≠ s.lastSign then
        { s with lastSignTime := now, lastSign := result } else s
  else s

/-- A whole stream of classification ticks, each a (label, timestamp) pair,
applied in order. -/
def runEvals (seq : List String) (evals : List (String × ℚ)) (s : GameState) : GameState :=
  evals.foldl (fun st p => evalStep seq p.1 p.2 st) s

/-! ## KNN classifier (`utils/knn.ts`, `KNNClassifier`)

A stored training example is a feature vector with a label.  Feature values
are real numbers because `predict` compares square roots of sums of
squares.  `euclideanDistance` runs over the shorter of the two vectors
(`Math.min(a.length, b.length)`), exactly as the source's defensive loop
does. -/

structure TrainingExample where
  features : List ℝ
  label : String

/-- `Math.sqrt` of the sum of squared componentwise differences over the
common length (`List.zip` truncates to the shorter list, as the source's
`Math.min(a.length, b.length)` loop bound does). -/
noncomputable def euclideanDistance (a b : List ℝ) : ℝ :=
  Real.sqrt (((a.zip b).map (fun p => (p.1 - p.2) * (p.1 - p.2))).sum)

/-- The per-example `{label, dist}` records built by `predict`'s first
loop, in storage order. -/
noncomputable def distancesTo (data : List TrainingExample) (features : List ℝ) :
    List (String × ℝ) :=
  data.map (fun d => (d.label, euclideanDistance features d.features))

/-- The comparator `(a, b) => a.dist - b.dist` sorts ascending by
distance; JavaScript `Array.prototype.sort` is stable, which insertion
sort models. -/
def distLe (a b : String × ℝ) : Prop := a.2 ≤ b.2

noncomputable instance : DecidableRel distLe :=
  fun a b => Real.decidableLE a.2 b.2

instance : IsTotal (String × ℝ) distLe := ⟨fun a b => le_total a.2 b.2⟩

instance : IsTrans (String × ℝ) distLe := ⟨fun _ _ _ h h2 => le_trans h h2⟩

noncomputable def sortByDist (l : List (String × ℝ)) : List (String × ℝ) :=
  l.insertionSort distLe

/-- The keys of the JavaScript `counts` object in insertion order: the
`for...in` loop visits the (non-numeric) string keys in the order they
were first inserted, i.e. the order in which each label is first
encountered in the nearest-to-farthest list. -/
def voteKeys (l : List String) : List String :=
  l.foldl (fun ks s => if s ∈ ks then ks else ks ++ [s]) []

/-- The majority-vote loop of `predict`: `maxCount` starts at 0 and
`prediction` at `"Unknown"`, and the leader is overwritten only on a
strict increase of the count. -/
def majorityVote (l : List String) : String :=
  ((voteKeys l).foldl
    (fun acc label => if l.count label > acc.1 then (l.count label, label) else acc)
    (0, "Unknown")).2

/-- `KNNClassifier.predict`: `"Unknown"` for an empty input or an empty
reference set; `"Idle"` when the nearest neighbour is farther than the
rejection threshold 1.8 (strictly); otherwise the majority vote over the
`k` nearest labels. -/
noncomputable def predict (data : List TrainingExample) (k : ℕ) (features : List ℝ) :
    String :=
  if features.length = 0 ∨ data.length = 0 then "Unknown"
  else
    let sorted := sortByDist (distancesTo data features)
    let kNearest := sorted.take k
    let minDist := kNearest.headI.2
    if minDist > 1.8 then "Idle"
    else majorityVote (kNearest.map Prod.fst)

/-- Helper: the keys contributed by `l` that are not already in `seen`, in
first-occurrence order.  `voteKeys` below is shown to be `newKeys [] l`. -/
def newKeys (seen : List String) : List String → List String
  | [] => []
  | x :: xs => if x ∈ seen then newKeys seen xs else x :: newKeys (x :: seen) xs

/-- The running `(maxCount, prediction)` pair of the vote loop. -/
def voteFold (l : List String) (keys : List String) (acc : ℕ × String) : ℕ × String :=
  keys.foldl (fun acc label => if l.count label > acc.1 then (l.count label, label) else acc) acc

/-! ## Landmark normalizer (`utils/knn.ts`, `normalizeHand`) -/

structure Landmark where
  x : ℝ
  y : ℝ
  z : ℝ

instance : Inhabited Landmark := ⟨⟨0, 0, 0⟩⟩

/-- The raw reference distance between landmark 0 (wrist) and landmark 9
(middle-finger base), before the degeneracy guard.  For the inputs the
claims quantify over (21 landmarks) both indices are in range; out-of-range
access would throw in JavaScript, modelled here by the default landmark. -/
noncomputable def handSpan (landmarks : List Landmark) : ℝ :=
  let wrist := landmarks.headI
  let middleBase := landmarks.getD 9 default
  Real.sqrt ((wrist.x - middleBase.x) ^ 2 + (wrist.y - middleBase.y) ^ 2 +
    (wrist.z - middleBase.z) ^ 2)

/-- `normalizeHand`: empty input gives empty output; otherwise every
landmark is translated by the wrist and divided by the guarded scale
(`if (dist < 0.0001) dist = 1.0`). -/
noncomputable def normalizeHand (landmarks : List Landmark) : List ℝ :=
  if landmarks.length = 0 then []
  else
    let wrist := landmarks.headI
    let dist := handSpan landmarks
    let d := if dist < 0.0001 then 1.0 else dist
    landmarks.flatMap (fun lm => [(lm.x - wrist.x) / d, (lm.y - wrist.y) / d,
      (lm.z - wrist.z) / d])

/-! ## YOLO decoder and NMS (`utils/yolo.ts`)

Boxes are `[x, y, width, height]` number arrays in the source; here a
record of rationals.  JavaScript division by a zero union area yields
`NaN` (`0/0`) or `±Infinity` (`x/0`); `calculateIoU` therefore returns an
`Option`, `none` standing for the non-finite float.  In `nms`, the test
`iou <= iouThreshold` is false for `NaN`, so a `none` comparison keeps the
box out of the `remaining` list — exactly the JavaScript comparison
semantics. -/

structure Box where
  x : ℚ
  y : ℚ
  w : ℚ
  h : ℚ
  deriving Repr, DecidableEq

/-- `calculateIoU`: intersection area over union area on `[x, y, w, h]`
boxes; `none` models the `NaN`/`Infinity` produced by dividing by a zero
union area, which the unguarded source division does. -/
def calculateIoU (boxA boxB : Box) : Option ℚ :=
  let x1 := max boxA.x boxB.x
  let y1 := max boxA.y boxB.y
  let x2 := min (boxA.x + boxA.w) (boxB.x + boxB.w)
  let y2 := min (boxA.y + boxA.h) (boxB.y + boxB.h)
  let intersectionWidth := max 0 (x2 - x1)
  let intersectionHeight := max 0 (y2 - y1)
  let intersectionArea := intersectionWidth * intersectionHeight
  let boxAArea := boxA.w * boxA.h
  let boxBArea := boxB.w * boxB.h
  if boxAArea + boxBArea - intersectionArea = 0 then none
  else some (intersectionArea / (boxAArea + boxBArea - intersectionArea))

/-- A surviving anchor before NMS: its box, its best class score and the
index of that class. -/
structure Candidate where
  box : Box
  score : ℚ
  classIndex : ℕ
  deriving Repr, DecidableEq

/-- The JavaScript test `calculateIoU(...) <= iouThreshold`: false when the
IoU is `NaN` (a `none` here), so such a candidate is dropped. -/
def iouLe (a b : Box) (thr : ℚ) : Bool :=
  match calculateIoU a b with
  | some v => v ≤ thr
  | none => false

/-- Score-descending order, the comparator `(a, b) => scores[b] - scores[a]`. -/
def candGe (a b : Candidate) : Prop := b.score ≤ a.score

instance : DecidableRel candGe := fun a b =>
  inferInstanceAs (Decidable (b.score ≤ a.score))

instance : IsTotal Candidate candGe := ⟨fun a b => le_total b.score a.score⟩

instance : IsTrans Candidate candGe := ⟨fun _ _ _ h1 h2 => le_trans h2 h1⟩

/-- `indices.sort((a, b) => scores[b] - scores[a])`: a stable descending
sort by score (JavaScript's sort is stable). -/
def sortByScoreDesc (l : List Candidate) : List Candidate :=
  l.insertionSort candGe

/-- The greedy suppression loop of `nms`: keep the best remaining
candidate, drop every remaining candidate whose IoU with it fails
`iou <= iouThreshold` (including the `NaN` case), repeat. -/
def greedyKeep (thr : ℚ) : List Candidate → List Candidate
  | [] => []
  | current :: rest =>
    current :: greedyKeep thr (rest.filter (fun b => iouLe current.box b.box thr))
termination_by l => l.length
decreasing_by
  simp only [List.length_cons]
  exact Nat.lt_succ_of_le (List.length_filter_le _ _)

/-- `nms boxes scores iouThreshold` in the source returns kept indices; the
model returns the kept candidates themselves, in the same (score-sorted)
order. -/
def nms (thr : ℚ) (l : List Candidate) : List Candidate :=
  greedyKeep thr (sortByScoreDesc l)

/-! ### The decoder `postprocess`

The source hard-codes `numAnchors = 8400` and `numClasses = 12` and never
validates `output.length`.  Reading a `Float32Array` out of bounds yields
`undefined` in JavaScript, and `undefined > x` is false for every `x`, so
an out-of-range score read can never become the running maximum; the
running maximum starts at `-Infinity`.  `ScoreAcc` models the running
maximum (`negInf` = the initial `-Infinity`), and an out-of-range read is
the `none` of `List.getElem?`. -/

def numAnchors : ℕ := 8400

def numClasses : ℕ := 12

def LABELS : List String :=
  ["tiger", "boar", "snake", "ram", "bird", "dragon",
   "dog", "rat", "horse", "monkey", "ox", "hare"]

/-- The running `(maxScore, maxClassIndex)` of the per-anchor class scan.
`negInf` is the initial `maxScore = -Infinity` (paired with the sentinel
`maxClassIndex = -1`, which needs no representation of its own: a class
index is recorded exactly when a score is). -/
inductive ScoreAcc where
  | negInf : ScoreAcc
  | found : ℚ → ℕ → ScoreAcc
  deriving Repr, DecidableEq

/-- `score > maxScore` in JavaScript: false when `score` is `undefined`
(an out-of-range read), true when `maxScore` is still `-Infinity`. -/
def scoreBeats (score : Option ℚ) (acc : ScoreAcc) : Bool :=
  match score, acc with
  | none, _ => false
  | some _, .negInf => true
  | some q, .found m _ => m < q

/-- The inner loop over the `numClasses` class channels of anchor `i`. -/
def anchorScan (output : List ℚ) (i : ℕ) : ScoreAcc :=
  (List.range numClasses).foldl
    (fun acc c =>
      let score := output[(4 + c) * numAnchors + i]?
      if scoreBeats score acc then
        .found (score.getD 0) c
      else acc)
    .negInf

/-- The candidates surviving the confidence threshold, in anchor order.
When a score was found, all four box reads are in range (their indices are
smaller than the found score's index), so the `getD 0` defaults are never
the value actually used. -/
def candidatesOf (output : List ℚ) (imgWidth imgHeight confThreshold : ℚ) :
    List Candidate :=
  (List.range numAnchors).filterMap (fun i =>
    match anchorScan output i with
    | .negInf => none
    | .found maxScore maxClassIndex =>
      if maxScore > confThreshold then
        let cx := (output[0 * numAnchors + i]?).getD 0
        let cy := (output[1 * numAnchors + i]?).getD 0
        let w := (output[2 * numAnchors + i]?).getD 0
        let h := (output[3 * numAnchors + i]?).getD 0
        some { box := { x := (cx - w / 2) * imgWidth, y := (cy - h / 2) * imgHeight,
                        w := w * imgWidth, h := h * imgHeight },
               score := maxScore, classIndex := maxClassIndex }
      else none)

structure DetectedObject where
  label : String
  score : ℚ
  box : ℚ × ℚ × ℚ × ℚ
  deriving Repr, DecidableEq

/-- `postprocess(output, imgWidth, imgHeight, confThreshold, iouThreshold)`:
decode all anchors, apply NMS, and map the kept candidates to
`DetectedObject`s with `[x1, y1, x2, y2]` corner boxes. -/
def postprocess (output : List ℚ) (imgWidth imgHeight confThreshold iouThreshold : ℚ) :
    List DetectedObject :=
  let cands := candidatesOf output imgWidth imgHeight confThreshold
  let kept := nms iouThreshold cands
  kept.map (fun c =>
    { label := LABELS.getD c.classIndex "", score := c.score,
      box := (c.box.x, c.box.y, c.box.x + c.box.w, c.box.y + c.box.h) })

/-! ## Helper lemmas about `evalStep` -/

/-- Match branch with a held label that differs in exact spelling from the
classified label: a fresh hold begins at the current timestamp and the step
does not move (the hold duration is `now - now = 0 ≤ CONFIRM_DELAY`). -/
theorem evalStep_fresh_hold (seq : List String) (result : String) (now : ℚ)
    (s : GameState) (h : s.step < seq.length)
    (hmatch : jsToUpper result = jsToUpper (seq.get ⟨s.step, h⟩))
    (hdiff : result ≠ s.lastSign) :
    evalStep seq result now s =
      { step := s.step, lastSign := result, lastSignTime := now } := by
  have hdiff' : s.lastSign ≠ result := Ne.symm hdiff
  simp only [evalStep, dif_pos h, if_pos hmatch, if_pos hdiff', CONFIRM_DELAY]
  norm_num

/-- When the machine has already completed (`step = length`), an evaluation
changes nothing: the whole game-progress block is guarded by
`currentStepRef.current < targetSequence.length`. -/
theorem evalStep_complete_frozen (seq : List String) (result : String) (now : ℚ)
    (s : GameState) (h : s.step = seq.length) :
    evalStep seq result now s = s := by
  have hn : ¬ s.step < seq.length := by omega
  simp only [evalStep, dif_neg hn]

/-- A single evaluation never pushes the step index past the sequence length. -/
theorem evalStep_step_le (seq : List String) (result : String) (now : ℚ)
    (s : GameState) (hle : s.step ≤ seq.length) :
    (evalStep seq result now s).step ≤ seq.length := by
  simp only [evalStep]
  split_ifs <;> first | omega | (simp only [GameState.mk.injEq]; omega)

theorem runEvals_step_le (seq : List String) (evals : List (String × ℚ))
    (s : GameState) (hle : s.step ≤ seq.length) :
    (runEvals seq evals s).step ≤ seq.length := by
  induction evals generalizing s with
  | nil => exact hle
  | cons e rest ih => exact ih _ (evalStep_step_le seq e.1 e.2 s hle)

/-- Same-label continuation: with the held label equal to the classified
label, `evalStep` advances exactly when `now - lastSignTime > CONFIRM_DELAY`
(strictly), and otherwise leaves the state untouched. -/
theorem evalStep_same_label (seq : List String) (result : String) (now : ℚ)
    (s : GameState) (h : s.step < seq.length)
    (hmatch : jsToUpper result = jsToUpper (seq.get ⟨s.step, h⟩))
    (hsame : s.lastSign = result) :
    (now - s.lastSignTime ≤ CONFIRM_DELAY → evalStep seq result now s = s) ∧
    (now - s.lastSignTime > CONFIRM_DELAY →
      evalStep seq result now s =
        { step := s.step + 1, lastSign := "Idle", lastSignTime := 0 }) := by
  have hns : ¬ s.lastSign ≠ result := by simp [hsame]
  constructor
  · intro hd
    simp only [evalStep, dif_pos h, if_pos hmatch, if_neg hns, if_neg (not_lt.2 hd)]
  · intro hd
    simp only [evalStep, dif_pos h, if_pos hmatch, if_neg hns, if_pos hd]

/-- Else branch of the match: a label that does not match the expected sign
(case-insensitively) and differs from the held label resets the hold. -/
theorem evalStep_wrong_sign (seq : List String) (result : String) (now : ℚ)
    (s : GameState) (h : s.step < seq.length)
    (hne : jsToUpper result ≠ jsToUpper (seq.get ⟨s.step, h⟩))
    (hdiff : result ≠ s.lastSign) :
    evalStep seq result now s =
      { step := s.step, lastSign := result, lastSignTime := now } := by
  simp only [evalStep, dif_pos h, if_neg hne, if_pos hdiff]

/-- A stream of correct-sign evaluations in which consecutive classified
labels always differ in exact spelling (starting from a held label that the
first one differs from) never advances the step: every tick re-enters the
fresh-hold branch, so the duration check always sees `0`. -/
theorem runEvals_alternating_no_advance (seq : List String) (tgt : String)
    (evals : List (String × ℚ)) :
    ∀ (s : GameState) (h : s.step < seq.length), seq.get ⟨s.step, h⟩ = tgt →
      (∀ p ∈ evals, jsToUpper p.1 = jsToUpper tgt) →
      List.Chain (fun a b => a ≠ b) s.lastSign (evals.map Prod.fst) →
      (runEvals seq evals s).step = s.step := by
  induction evals with
  | nil => intro s h _ _ _; rfl
  | cons e rest ih =>
    intro s h htgt hall hchain
    rcases e with ⟨r, t⟩
    simp only [List.map_cons, List.chain_cons] at hchain
    have hstep : evalStep seq r t s =
        { step := s.step, lastSign := r, lastSignTime := t } := by
      apply evalStep_fresh_hold seq r t s h
      · rw [htgt]; exact hall _ (List.mem_cons_self _ _)
      · exact Ne.symm hchain.1
    have hrun : runEvals seq (⟨r, t⟩ :: rest) s
        = runEvals seq rest (evalStep seq r t s) := rfl
    rw [hrun, hstep]
    exact ih _ h htgt (fun p hp => hall p (List.mem_cons_of_mem _ hp)) hchain.2

/-- Once complete, a whole stream of further evaluations changes nothing. -/
theorem runEvals_complete_frozen (seq : List String) (evals : List (String × ℚ))
    (s : GameState) (h : s.step = seq.length) :
    runEvals seq evals s = s := by
  induction evals with
  | nil => rfl
  | cons e rest ih =>
    have : runEvals seq (e :: rest) s = runEvals seq rest (evalStep seq e.1 e.2 s) := rfl
    rw [this, evalStep_complete_frozen seq e.1 e.2 s h, ih]

/-! ## Claim theorems: sequence state machine -/

/-- C1 counterexample: the claim asserts that a hold of exactly
`CONFIRM_DELAY = 600` ms advances the step.  In the code the check is
`holdDuration > CONFIRM_DELAY`, strictly, so an evaluation with hold
duration exactly 600 ms leaves the state (in particular the step index)
unchanged. -/
theorem hold_exactly_600ms_does_not_advance :
    evalStep targetSequence "SNAKE" 600 { step := 0, lastSign := "SNAKE", lastSignTime := 0 }
      = { step := 0, lastSign := "SNAKE", lastSignTime := 0 } := by
  norm_num [evalStep, targetSequence, CONFIRM_DELAY]

/-- C1 (amended): while the classified label matches the expected label
case-insensitively and equals the currently held label, the step advances
exactly when the hold duration `now - lastSignTime` strictly exceeds
`CONFIRM_DELAY` (600 ms): a hold of 599 ms — or of exactly 600 ms — does
not advance the step, and a strictly longer hold advances it exactly once,
resetting the held label to `"Idle"`. -/
theorem hold_advances_iff_strictly_over_delay (seq : List String) (result : String)
    (now : ℚ) (s : GameState) (h : s.step < seq.length)
    (hmatch : jsToUpper result = jsToUpper (seq.get ⟨s.step, h⟩))
    (hsame : s.lastSign = result) :
    (now - s.lastSignTime ≤ CONFIRM_DELAY → evalStep seq result now s = s) ∧
    (now - s.lastSignTime > CONFIRM_DELAY →
      evalStep seq result now s =
        { step := s.step + 1, lastSign := "Idle", lastSignTime := 0 }) :=
  evalStep_same_label seq result now s h hmatch hsame

/-- C1 witness: at the expected label `"SNAKE"`, a hold of 599 ms leaves
the state unchanged and a hold of 601 ms advances the step to 1. -/
theorem hold_advances_iff_strictly_over_delay_witness :
    evalStep targetSequence "SNAKE" 599 { step := 0, lastSign := "SNAKE", lastSignTime := 0 }
        = { step := 0, lastSign := "SNAKE", lastSignTime := 0 } ∧
    evalStep targetSequence "SNAKE" 601 { step := 0, lastSign := "SNAKE", lastSignTime := 0 }
        = { step := 1, lastSign := "Idle", lastSignTime := 0 } :=
  ⟨(hold_advances_iff_strictly_over_delay targetSequence "SNAKE" 599
      ⟨0, "SNAKE", 0⟩ (by norm_num [targetSequence]) (by decide) rfl).1
      (by norm_num [CONFIRM_DELAY]),
   (hold_advances_iff_strictly_over_delay targetSequence "SNAKE" 601
      ⟨0, "SNAKE", 0⟩ (by norm_num [targetSequence]) (by decide) rfl).2
      (by norm_num [CONFIRM_DELAY])⟩

/-- The concrete "TIGER 400 ms, one SNAKE frame, TIGER again" interruption
scenario, stopped at `t = 1000`: the second TIGER hold started at 500 ms,
so only 500 ms have been held and the step has not advanced (had the timer
resumed from the first hold, 1000 ms > 600 ms would have advanced it). -/
theorem interruption_run_1000 :
    runEvals ["TIGER"] [("TIGER", 0), ("TIGER", 400), ("SNAKE", 450),
        ("TIGER", 500), ("TIGER", 1000)] initState
      = { step := 0, lastSign := "TIGER", lastSignTime := 500 } := by
  have hits : jsToUpper "TIGER" = jsToUpper "TIGER" := rfl
  have hsn : jsToUpper "SNAKE" ≠ jsToUpper "TIGER" := by decide
  have hd1 : ("TIGER" : String) ≠ "Idle" := by decide
  have hd2 : ("SNAKE" : String) ≠ "TIGER" := by decide
  have hd3 : ("TIGER" : String) ≠ "SNAKE" := by decide
  have e1 : evalStep ["TIGER"] "TIGER" 0 initState = ⟨0, "TIGER", 0⟩ := by
    norm_num [evalStep, initState, CONFIRM_DELAY, hd1.symm]
  have e2 : evalStep ["TIGER"] "TIGER" 400 ⟨0, "TIGER", 0⟩ = ⟨0, "TIGER", 0⟩ := by
    norm_num [evalStep, CONFIRM_DELAY]
  have e3 : evalStep ["TIGER"] "SNAKE" 450 ⟨0, "TIGER", 0⟩ = ⟨0, "SNAKE", 450⟩ := by
    norm_num [evalStep, CONFIRM_DELAY, hsn, hd2]
  have e4 : evalStep ["TIGER"] "TIGER" 500 ⟨0, "SNAKE", 450⟩ = ⟨0, "TIGER", 500⟩ := by
    norm_num [evalStep, CONFIRM_DELAY, hd3.symm]
  have e5 : evalStep ["TIGER"] "TIGER" 1000 ⟨0, "TIGER", 500⟩ = ⟨0, "TIGER", 500⟩ := by
    norm_num [evalStep, CONFIRM_DELAY]
  simp only [runEvals, List.foldl_cons, List.foldl_nil, e1, e2, e3, e4, e5]

/-- The same scenario with the last tick at `t = 1101`: 601 ms held on the
second TIGER hold, which strictly exceeds `CONFIRM_DELAY`, so the step
advances to 1. -/
theorem interruption_run_1101 :
    runEvals ["TIGER"] [("TIGER", 0), ("TIGER", 400), ("SNAKE", 450),
        ("TIGER", 500), ("TIGER", 1101)] initState
      = { step := 1, lastSign := "Idle", lastSignTime := 0 } := by
  have hsn : jsToUpper "SNAKE" ≠ jsToUpper "TIGER" := by decide
  have hd1 : ("TIGER" : String) ≠ "Idle" := by decide
  have hd2 : ("SNAKE" : String) ≠ "TIGER" := by decide
  have hd3 : ("TIGER" : String) ≠ "SNAKE" := by decide
  have e1 : evalStep ["TIGER"] "TIGER" 0 initState = ⟨0, "TIGER", 0⟩ := by
    norm_num [evalStep, initState, CONFIRM_DELAY, hd1.symm]
  have e2 : evalStep ["TIGER"] "TIGER" 400 ⟨0, "TIGER", 0⟩ = ⟨0, "TIGER", 0⟩ := by
    norm_num [evalStep, CONFIRM_DELAY]
  have e3 : evalStep ["TIGER"] "SNAKE" 450 ⟨0, "TIGER", 0⟩ = ⟨0, "SNAKE", 450⟩ := by
    norm_num [evalStep, CONFIRM_DELAY, hsn, hd2]
  have e4 : evalStep ["TIGER"] "TIGER" 500 ⟨0, "SNAKE", 450⟩ = ⟨0, "TIGER", 500⟩ := by
    norm_num [evalStep, CONFIRM_DELAY, hd3.symm]
  have e5 : evalStep ["TIGER"] "TIGER" 1101 ⟨0, "TIGER", 500⟩ = ⟨1, "Idle", 0⟩ := by
    norm_num [evalStep, CONFIRM_DELAY]
  simp only [runEvals, List.foldl_cons, List.foldl_nil, e1, e2, e3, e4, e5]

/-- C4: when the classified label does not match the expected label
(case-insensitively) and differs from the currently held label, the machine
sets `lastSign` to the new label and `lastSignTime` to the current
timestamp — the hold timer restarts on the new label rather than freezing.
The two concrete runs are the "TIGER held 400 ms, one SNAKE frame, TIGER
again" scenario: the second TIGER hold is measured from its own start
(t = 500), so at `t = 1000` the step has not advanced, while at
`t = 1101` (601 ms held) it has. -/
theorem wrong_label_restarts_timer (seq : List String) (result : String)
    (now : ℚ) (s : GameState) (h : s.step < seq.length)
    (hne : jsToUpper result ≠ jsToUpper (seq.get ⟨s.step, h⟩))
    (hdiff : result ≠ s.lastSign) :
    evalStep seq result now s =
      { step := s.step, lastSign := result, lastSignTime := now } ∧
    (runEvals ["TIGER"] [("TIGER", 0), ("TIGER", 400), ("SNAKE", 450),
        ("TIGER", 500), ("TIGER", 1000)] initState).step = 0 ∧
    (runEvals ["TIGER"] [("TIGER", 0), ("TIGER", 400), ("SNAKE", 450),
        ("TIGER", 500), ("TIGER", 1101)] initState).step = 1 :=
  ⟨evalStep_wrong_sign seq result now s h hne hdiff,
   by rw [interruption_run_1000], by rw [interruption_run_1101]⟩

/-- C4 witness: a frame of `"Idle"` while `"TIGER"` is held at step 0 of
the fireball sequence resets the hold to (`"Idle"`, 400). -/
theorem wrong_label_restarts_timer_witness :
    evalStep targetSequence "Idle" 400 { step := 0, lastSign := "TIGER", lastSignTime := 0 }
        = { step := 0, lastSign := "Idle", lastSignTime := 400 } ∧
    (runEvals ["TIGER"] [("TIGER", 0), ("TIGER", 400), ("SNAKE", 450),
        ("TIGER", 500), ("TIGER", 1000)] initState).step = 0 ∧
    (runEvals ["TIGER"] [("TIGER", 0), ("TIGER", 400), ("SNAKE", 450),
        ("TIGER", 500), ("TIGER", 1101)] initState).step = 1 :=
  wrong_label_restarts_timer targetSequence "Idle" 400 ⟨0, "TIGER", 0⟩
    (by norm_num [targetSequence]) (by decide) (by decide)

/-- C5: from the initial state, the step index always stays at most the
sequence length; any single evaluation preserves that bound; and once the
index equals the length (the sequence is complete) no further evaluation —
single or a whole stream — changes the state, as there is no reset in
`evalStep` itself. -/
theorem step_index_bounded (seq : List String) (evals : List (String × ℚ)) :
    (runEvals seq evals initState).step ≤ seq.length ∧
    (∀ (result : String) (now : ℚ) (s : GameState), s.step ≤ seq.length →
      (evalStep seq result now s).step ≤ seq.length) ∧
    (∀ (result : String) (now : ℚ) (s : GameState), s.step = seq.length →
      evalStep seq result now s = s) ∧
    (∀ (more : List (String × ℚ)) (s : GameState), s.step = seq.length →
      runEvals seq more s = s) :=
  ⟨runEvals_step_le seq evals initState (Nat.zero_le _),
   fun result now s hle => evalStep_step_le seq result now s hle,
   fun result now s h => evalStep_complete_frozen seq result now s h,
   fun more s h => runEvals_complete_frozen seq more s h⟩

/-- C10: the expected-label comparison is case-insensitive but the
held-label comparison is exact.  A label that matches the expected sign
case-insensitively yet differs in spelling from the held label restarts the
hold timer at the current timestamp, and a stream that changes the casing
of the correct sign at every evaluation never advances the step. -/
theorem casing_change_restarts_hold (seq : List String) (result : String)
    (now : ℚ) (s : GameState) (h : s.step < seq.length)
    (hmatch : jsToUpper result = jsToUpper (seq.get ⟨s.step, h⟩))
    (hdiff : result ≠ s.lastSign)
    (evals : List (String × ℚ))
    (hall : ∀ p ∈ evals, jsToUpper p.1 = jsToUpper (seq.get ⟨s.step, h⟩))
    (hchain : List.Chain (fun a b => a ≠ b) s.lastSign (evals.map Prod.fst)) :
    evalStep seq result now s =
      { step := s.step, lastSign := result, lastSignTime := now } ∧
    (runEvals seq evals s).step = s.step :=
  ⟨evalStep_fresh_hold seq result now s h hmatch hdiff,
   runEvals_alternating_no_advance seq (seq.get ⟨s.step, h⟩) evals s h rfl hall hchain⟩

/-- C10 witness: `"Snake"` following held `"SNAKE"` (both match the
expected `"SNAKE"` case-insensitively) restarts the timer, and a stream
alternating the two casings every 100 ms for 800 ms never advances the
step. -/
theorem casing_change_restarts_hold_witness :
    evalStep targetSequence "Snake" 100 { step := 0, lastSign := "SNAKE", lastSignTime := 0 }
        = { step := 0, lastSign := "Snake", lastSignTime := 100 } ∧
    (runEvals targetSequence
        [("Snake", 100), ("SNAKE", 200), ("Snake", 300), ("SNAKE", 400),
         ("Snake", 500), ("SNAKE", 600), ("Snake", 700), ("SNAKE", 800)]
        { step := 0, lastSign := "SNAKE", lastSignTime := 0 }).step = 0 :=
  casing_change_restarts_hold targetSequence "Snake" 100 ⟨0, "SNAKE", 0⟩
    (by norm_num [targetSequence]) (by decide) (by decide) _ (by decide)
    (by simp only [List.map_cons, List.map_nil, List.chain_cons, List.Chain.nil, and_true]; decide)

/-! ### Characterizing the majority vote -/

theorem newKeys_congr (l : List String) : ∀ (s1 s2 : List String),
    (∀ a, a ∈ s1 ↔ a ∈ s2) → newKeys s1 l = newKeys s2 l := by
  induction l with
  | nil => intro s1 s2 _; rfl
  | cons x xs ih =>
    intro s1 s2 hm
    by_cases hx : x ∈ s1
    · rw [newKeys, if_pos hx, newKeys, if_pos ((hm x).1 hx)]
      exact ih s1 s2 hm
    · rw [newKeys, if_neg hx, newKeys, if_neg (fun h => hx ((hm x).2 h))]
      exact congrArg (x :: ·) (ih _ _ (by intro a; simp [hm a]))

theorem voteKeys_foldl_eq (l : List String) : ∀ ks : List String,
    l.foldl (fun ks s => if s ∈ ks then ks else ks ++ [s]) ks = ks ++ newKeys ks l := by
  induction l with
  | nil => intro ks; simp [newKeys]
  | cons x xs ih =>
    intro ks
    by_cases hx : x ∈ ks
    · rw [List.foldl_cons]
      simp only [if_pos hx]
      rw [ih ks, newKeys, if_pos hx]
    · rw [List.foldl_cons]
      simp only [if_neg hx]
      rw [ih (ks ++ [x]), newKeys, if_neg hx]
      rw [newKeys_congr xs (ks ++ [x]) (x :: ks) (by intro a; simp [or_comm])]
      simp

theorem voteKeys_eq_newKeys (l : List String) : voteKeys l = newKeys [] l := by
  rw [voteKeys, voteKeys_foldl_eq l [], List.nil_append]

theorem mem_newKeys (l : List String) : ∀ (seen : List String) (x : String),
    x ∈ newKeys seen l ↔ x ∈ l ∧ x ∉ seen := by
  induction l with
  | nil => intro seen x; simp [newKeys]
  | cons a xs ih =>
    intro seen x
    by_cases ha : a ∈ seen
    · rw [newKeys, if_pos ha, ih]
      constructor
      · rintro ⟨h1, h2⟩; exact ⟨List.mem_cons_of_mem _ h1, h2⟩
      · rintro ⟨h1, h2⟩
        rcases List.mem_cons.1 h1 with rfl | h1
        · exact absurd ha h2
        · exact ⟨h1, h2⟩
    · rw [newKeys, if_neg ha]
      constructor
      · intro hx
        rcases List.mem_cons.1 hx with rfl | hx
        · exact ⟨List.mem_cons_self _ _, ha⟩
        · rcases (ih _ _).1 hx with ⟨h1, h2⟩
          refine ⟨List.mem_cons_of_mem _ h1, fun hs => h2 (List.mem_cons_of_mem _ hs)⟩
      · rintro ⟨h1, h2⟩
        rcases List.mem_cons.1 h1 with rfl | h1
        · exact List.mem_cons_self _ _
        · by_cases hxa : x = a
          · subst hxa; exact List.mem_cons_self _ _
          · exact List.mem_cons_of_mem _ ((ih _ _).2
              ⟨h1, fun hs => by
                rcases List.mem_cons.1 hs with h | h
                · exact hxa h
                · exact h2 h⟩)

theorem newKeys_nodup (l : List String) : ∀ seen : List String,
    (newKeys seen l).Nodup := by
  induction l with
  | nil => intro _; simp [newKeys]
  | cons a xs ih =>
    intro seen
    by_cases ha : a ∈ seen
    · rw [newKeys, if_pos ha]; exact ih seen
    · rw [newKeys, if_neg ha]
      refine List.nodup_cons.2 ⟨fun hmem => ?_, ih _⟩
      exact ((mem_newKeys xs _ a).1 hmem).2 (List.mem_cons_self _ _)

theorem newKeys_indexOf_lt (l : List String) : ∀ (seen : List String) (x y : String),
    x ≠ y → x ∈ newKeys seen l → y ∈ newKeys seen l →
    List.indexOf x (newKeys seen l) < List.indexOf y (newKeys seen l) →
    List.indexOf x l < List.indexOf y l := by
  induction l with
  | nil => intro seen x y _ hx _ _; simp [newKeys] at hx
  | cons a xs ih =>
    intro seen x y hxy hx hy hlt
    by_cases ha : a ∈ seen
    · rw [newKeys, if_pos ha] at hx hy hlt
      have hxa : x ≠ a := fun h => ((mem_newKeys xs seen x).1 hx).2 (h ▸ ha)
      have hya : y ≠ a := fun h => ((mem_newKeys xs seen y).1 hy).2 (h ▸ ha)
      rw [List.indexOf_cons_ne _ (Ne.symm hxa), List.indexOf_cons_ne _ (Ne.symm hya)]
      exact Nat.succ_lt_succ (ih seen x y hxy hx hy hlt)
    · rw [newKeys, if_neg ha] at hx hy hlt
      by_cases hxa : x = a
      · subst hxa
        have hya : y ≠ x := Ne.symm hxy
        rw [List.indexOf_cons_self, List.indexOf_cons_ne _ (by exact fun h => hya h.symm)]
        exact Nat.succ_pos _
      · have hxm : x ∈ newKeys (a :: seen) xs := by
          rcases List.mem_cons.1 hx with h | h
          · exact absurd h hxa
          · exact h
        have hya : y ≠ a := by
          intro h; subst h
          rw [List.indexOf_cons_self] at hlt
          omega
        have hym : y ∈ newKeys (a :: seen) xs := by
          rcases List.mem_cons.1 hy with h | h
          · exact absurd h hya
          · exact h
        rw [List.indexOf_cons_ne _ (Ne.symm hxa), List.indexOf_cons_ne _ (Ne.symm hya)] at hlt
        rw [List.indexOf_cons_ne _ (Ne.symm hxa), List.indexOf_cons_ne _ (Ne.symm hya)]
        exact Nat.succ_lt_succ (ih _ x y hxy hxm hym (Nat.lt_of_succ_lt_succ hlt))

theorem mem_voteKeys (l : List String) (x : String) : x ∈ voteKeys l ↔ x ∈ l := by
  rw [voteKeys_eq_newKeys, mem_newKeys]
  simp

theorem voteKeys_nodup (l : List String) : (voteKeys l).Nodup := by
  rw [voteKeys_eq_newKeys]; exact newKeys_nodup l []

theorem voteKeys_indexOf_le (l : List String) (x y : String)
    (hx : x ∈ voteKeys l) (hy : y ∈ voteKeys l)
    (hle : List.indexOf x (voteKeys l) ≤ List.indexOf y (voteKeys l)) :
    List.indexOf x l ≤ List.indexOf y l := by
  by_cases hxy : x = y
  · subst hxy; exact le_refl _
  · have hlt : List.indexOf x (voteKeys l) < List.indexOf y (voteKeys l) := by
      rcases lt_or_eq_of_le hle with h | h
      · exact h
      · exact absurd ((List.indexOf_inj hx hy).1 h) hxy
    rw [voteKeys_eq_newKeys] at hx hy hlt
    exact le_of_lt (newKeys_indexOf_lt l [] x y hxy hx hy hlt)

theorem voteFold_mono (l : List String) : ∀ (keys : List String) (acc : ℕ × String),
    acc.1 ≤ (voteFold l keys acc).1 := by
  intro keys
  induction keys with
  | nil => intro acc; exact le_refl _
  | cons k ks ih =>
    intro acc
    rw [voteFold, List.foldl_cons]
    by_cases h : l.count k > acc.1
    · rw [if_pos h]
      exact le_trans (le_of_lt h) (ih ⟨l.count k, k⟩)
    · rw [if_neg h]
      exact ih acc

theorem voteFold_ge_counts (l : List String) : ∀ (keys : List String) (acc : ℕ × String)
    (k : String), k ∈ keys → l.count k ≤ (voteFold l keys acc).1 := by
  intro keys
  induction keys with
  | nil => intro acc k hk; simp at hk
  | cons k0 ks ih =>
    intro acc k hk
    rw [voteFold, List.foldl_cons]
    rcases List.mem_cons.1 hk with rfl | hk
    · by_cases h : l.count k > acc.1
      · rw [if_pos h]
        exact le_trans (le_refl _) (voteFold_mono l ks ⟨l.count k, k⟩)
      · rw [if_neg h]
        exact le_trans (not_lt.1 h) (voteFold_mono l ks acc)
    · by_cases h : l.count k0 > acc.1
      · rw [if_pos h]; exact ih _ k hk
      · rw [if_neg h]; exact ih _ k hk

theorem voteFold_no_update (l : List String) : ∀ (keys : List String) (acc : ℕ × String),
    (∀ k ∈ keys, l.count k ≤ acc.1) → voteFold l keys acc = acc := by
  intro keys
  induction keys with
  | nil => intro acc _; rfl
  | cons k0 ks ih =>
    intro acc hall
    rw [voteFold, List.foldl_cons,
      if_neg (not_lt.2 (hall k0 (List.mem_cons_self _ _)))]
    exact ih acc (fun k hk => hall k (List.mem_cons_of_mem _ hk))

/-- The core characterization: when some key strictly beats the running
maximum, the fold ends on a key whose count is the final maximum, that
maximum strictly exceeds the starting one, and among the keys attaining
the final maximum the result is the earliest-listed one. -/
theorem voteFold_char (l : List String) : ∀ (keys : List String) (acc : ℕ × String),
    keys.Nodup → (∃ k ∈ keys, acc.1 < l.count k) →
    (voteFold l keys acc).2 ∈ keys ∧
    l.count (voteFold l keys acc).2 = (voteFold l keys acc).1 ∧
    acc.1 < (voteFold l keys acc).1 ∧
    (∀ k ∈ keys, l.count k = (voteFold l keys acc).1 →
      List.indexOf (voteFold l keys acc).2 keys ≤ List.indexOf k keys) := by
  intro keys
  induction keys with
  | nil => intro acc _ hex; simp at hex
  | cons k0 ks ih =>
    intro acc hnd hex
    have hnd' := List.nodup_cons.1 hnd
    by_cases h0 : l.count k0 > acc.1
    · -- the head strictly beats the running maximum: it becomes the leader
      have hstep : voteFold l (k0 :: ks) acc = voteFold l ks ⟨l.count k0, k0⟩ := by
        rw [voteFold, List.foldl_cons, if_pos h0]; rfl
      by_cases hrest : ∃ k ∈ ks, l.count k0 < l.count k
      · -- some later key strictly beats the head
        obtain ⟨hmem, hcnt, hgt, htie⟩ := ih ⟨l.count k0, k0⟩ hnd'.2 hrest
        rw [hstep]
        refine ⟨List.mem_cons_of_mem _ hmem, hcnt, lt_trans h0 hgt, ?_⟩
        intro k hk hkc
        rcases List.mem_cons.1 hk with rfl | hk
        · have h2 : l.count k < (voteFold l ks (l.count k, k)).1 := hgt
          exact absurd hkc (ne_of_lt h2)
        · have hne0 : (voteFold l ks ⟨l.count k0, k0⟩).2 ≠ k0 :=
            fun h => hnd'.1 (h ▸ hmem)
          have hkne0 : k ≠ k0 := fun h => hnd'.1 (h ▸ hk)
          rw [List.indexOf_cons_ne _ (Ne.symm hne0), List.indexOf_cons_ne _ (Ne.symm hkne0)]
          exact Nat.succ_le_succ (htie k hk hkc)
      · -- no later key strictly beats the head: the head wins
        push_neg at hrest
        have hfix : voteFold l ks ⟨l.count k0, k0⟩ = ⟨l.count k0, k0⟩ :=
          voteFold_no_update l ks _ hrest
        rw [hstep, hfix]
        refine ⟨List.mem_cons_self _ _, rfl, h0, ?_⟩
        intro k _ _
        rw [List.indexOf_cons_self]
        exact Nat.zero_le _
    · -- the head does not beat the running maximum: skip it
      have hstep : voteFold l (k0 :: ks) acc = voteFold l ks acc := by
        rw [voteFold, List.foldl_cons, if_neg h0]; rfl
      obtain ⟨k, hk, hkgt⟩ := hex
      have hkrest : k ∈ ks := by
        rcases List.mem_cons.1 hk with rfl | h
        · exact absurd hkgt h0
        · exact h
      obtain ⟨hmem, hcnt, hgt, htie⟩ := ih acc hnd'.2 ⟨k, hkrest, hkgt⟩
      rw [hstep]
      refine ⟨List.mem_cons_of_mem _ hmem, hcnt, hgt, ?_⟩
      intro k2 hk2 hk2c
      rcases List.mem_cons.1 hk2 with rfl | hk2
      · have h1 : l.count k2 ≤ acc.1 := not_lt.1 h0
        have h2 : acc.1 < (voteFold l ks acc).1 := hgt
        exact absurd hk2c (by omega)
      · have hne0 : (voteFold l ks acc).2 ≠ k0 := fun h => hnd'.1 (h ▸ hmem)
        have hkne0 : k2 ≠ k0 := fun h => hnd'.1 (h ▸ hk2)
        rw [List.indexOf_cons_ne _ (Ne.symm hne0), List.indexOf_cons_ne _ (Ne.symm hkne0)]
        exact Nat.succ_le_succ (htie k2 hk2 hk2c)

/-- The winner of the majority vote for a nonempty label list: it occurs in
the list, its count is maximal, and among maximal-count labels it is the
one whose first occurrence is earliest. -/
theorem majorityVote_spec (l : List String) (hl : l ≠ []) :
    majorityVote l ∈ l ∧
    (∀ y ∈ l, l.count y ≤ l.count (majorityVote l)) ∧
    (∀ y ∈ l, l.count y = l.count (majorityVote l) →
      List.indexOf (majorityVote l) l ≤ List.indexOf y l) := by
  obtain ⟨a, ha⟩ := List.exists_mem_of_ne_nil l hl
  have hex : ∃ k ∈ voteKeys l, (0, "Unknown").1 < l.count k :=
    ⟨a, (mem_voteKeys l a).2 ha, List.count_pos_iff.2 ha⟩
  obtain ⟨hmem, hcnt, _, htie⟩ := voteFold_char l (voteKeys l) (0, "Unknown")
    (voteKeys_nodup l) hex
  have hw : majorityVote l = (voteFold l (voteKeys l) (0, "Unknown")).2 := rfl
  constructor
  · rw [hw]; exact (mem_voteKeys l _).1 hmem
  constructor
  · intro y hy
    rw [hw, hcnt]
    exact voteFold_ge_counts l (voteKeys l) _ y ((mem_voteKeys l y).2 hy)
  · intro y hy hyc
    rw [hw]
    apply voteKeys_indexOf_le l _ y hmem ((mem_voteKeys l y).2 hy)
    apply htie y ((mem_voteKeys l y).2 hy)
    rw [← hcnt, ← hw]
    exact hyc

/-- C6: in the KNN majority vote, a label with strictly greatest count
wins; ties go to the label first encountered in nearest-to-farthest order
(the tally only overwrites the leader on a strict increase); in particular
for `k = 4` with labels `[A, A, B, B]` the winner is `A`, not `B`. -/
theorem knn_vote_first_leader (l : List String) (hl : l ≠ []) :
    majorityVote l ∈ l ∧
    (∀ y ∈ l, l.count y ≤ l.count (majorityVote l)) ∧
    (∀ y ∈ l, l.count y = l.count (majorityVote l) →
      List.indexOf (majorityVote l) l ≤ List.indexOf y l) ∧
    (∀ x ∈ l, (∀ y ∈ l, y ≠ x → l.count y < l.count x) → majorityVote l = x) ∧
    (∀ A B : String, A ≠ B → majorityVote [A, A, B, B] = A) := by
  obtain ⟨hmem, hmax, htie⟩ := majorityVote_spec l hl
  refine ⟨hmem, hmax, htie, ?_, ?_⟩
  · intro x hx hstrict
    by_contra hne
    exact absurd (hmax x hx) (not_le.2 (hstrict _ hmem hne))
  · intro A B hAB
    obtain ⟨hmem2, hmax2, htie2⟩ := majorityVote_spec [A, A, B, B] (by simp)
    have hcA : List.count A [A, A, B, B] = 2 := by
      simp [List.count_cons, hAB]
    have hcB : List.count B [A, A, B, B] = 2 := by
      simp [List.count_cons, Ne.symm hAB]
    have hiA : List.indexOf A [A, A, B, B] = 0 := List.indexOf_cons_self A _
    have hiB : List.indexOf B [A, A, B, B] = 2 := by
      rw [List.indexOf_cons_ne _ hAB, List.indexOf_cons_ne _ hAB,
        List.indexOf_cons_self]
    rcases List.mem_cons.1 hmem2 with h | h
    · exact h
    rcases List.mem_cons.1 h with h2 | h2
    · exact h2
    rcases List.mem_cons.1 h2 with h3 | h3
    · exfalso
      have := htie2 A (by simp) (by rw [hcA, h3, hcB])
      rw [hiA, h3, hiB] at this
      omega
    rcases List.mem_cons.1 h3 with h4 | h4
    · exfalso
      have := htie2 A (by simp) (by rw [hcA, h4, hcB])
      rw [hiA, h4, hiB] at this
      omega
    · simp at h4

/-- C6 witness: the vote over `["tiger", "tiger", "snake", "snake"]`
(nearest to farthest) picks `"tiger"`. -/
theorem knn_vote_first_leader_witness :
    majorityVote ["tiger", "tiger", "snake", "snake"] = "tiger" :=
  (knn_vote_first_leader ["tiger", "tiger", "snake", "snake"]
    (by simp)).2.2.2.2 "tiger" "snake" (by decide)

/-- C7: with a nonempty feature vector and a nonempty reference set, if
every stored example (in particular the nearest one) is strictly farther
than the rejection threshold 1.8, `predict` returns `"Idle"` regardless of
the vote; if the nearest distance is exactly 1.8 the strict comparison
fails and the majority vote over the `k` nearest labels is taken. -/
theorem knn_rejection_threshold (data : List TrainingExample) (k : ℕ)
    (features : List ℝ) (hk : 0 < k) (hf : features ≠ []) (hd : data ≠ []) :
    ((∀ ex ∈ data, euclideanDistance features ex.features > 1.8) →
      predict data k features = "Idle") ∧
    ((∀ ex ∈ data, 1.8 ≤ euclideanDistance features ex.features) →
      (∃ ex ∈ data, euclideanDistance features ex.features = 1.8) →
      predict data k features =
        majorityVote (((sortByDist (distancesTo data features)).take k).map Prod.fst)) := by
  have hcond : ¬(features.length = 0 ∨ data.length = 0) := by
    simp [List.length_eq_zero, hf, hd]
  have hperm : List.Perm (sortByDist (distancesTo data features)) (distancesTo data features) :=
    List.perm_insertionSort distLe _
  have hne : sortByDist (distancesTo data features) ≠ [] := by
    intro h
    have := hperm.length_eq
    rw [h] at this
    simp [distancesTo] at this
    exact hd (List.length_eq_zero.1 this.symm)
  obtain ⟨c, cs, hcons⟩ := List.exists_cons_of_ne_nil hne
  obtain ⟨k0, rfl⟩ := Nat.exists_eq_succ_of_ne_zero (Nat.pos_iff_ne_zero.1 hk)
  have htake : (sortByDist (distancesTo data features)).take (k0 + 1)
      = c :: cs.take k0 := by
    rw [hcons, List.take_succ_cons]
  have hheadI : ((sortByDist (distancesTo data features)).take (k0 + 1)).headI = c := by
    rw [htake]; rfl
  have hcmem : c ∈ distancesTo data features :=
    hperm.mem_iff.1 (hcons ▸ List.mem_cons_self c cs)
  obtain ⟨ex, hexm, hexd⟩ : ∃ ex ∈ data,
      (ex.label, euclideanDistance features ex.features) = c := by
    rcases List.mem_map.1 hcmem with ⟨ex, hexm, hexd⟩
    exact ⟨ex, hexm, hexd⟩
  constructor
  · intro hfar
    have hgt : c.2 > 1.8 := by
      rw [← hexd]
      exact hfar ex hexm
    simp only [predict, if_neg hcond, hheadI, if_pos hgt]
  · intro hge ⟨ex0, hex0, hex0d⟩
    have hc_ge : 1.8 ≤ c.2 := by
      rw [← hexd]
      exact hge ex hexm
    have hc_le : c.2 ≤ 1.8 := by
      have hmem0 : (ex0.label, euclideanDistance features ex0.features)
          ∈ sortByDist (distancesTo data features) :=
        hperm.mem_iff.2 (List.mem_map.2 ⟨ex0, hex0, rfl⟩)
      have hsorted : List.Sorted distLe (sortByDist (distancesTo data features)) :=
        List.sorted_insertionSort distLe _
      rw [hcons] at hmem0 hsorted
      rcases List.mem_cons.1 hmem0 with h | h
      · rw [← h] at hc_ge ⊢
        simpa using hex0d.le
      · have := List.rel_of_sorted_cons hsorted _ h
        rw [distLe] at this
        calc c.2 ≤ (ex0.label, euclideanDistance features ex0.features).2 := this
          _ = 1.8 := by simpa using hex0d
    have hnot : ¬ c.2 > 1.8 := not_lt.2 hc_le
    simp only [predict, if_neg hcond, hheadI, if_neg hnot]

/-- C7 witness: with one stored example at distance `√4 = 2 > 1.8`,
`predict` rejects and returns `"Idle"`. -/
theorem knn_rejection_threshold_witness :
    predict [⟨[0], "Tiger"⟩] 3 [2] = "Idle" :=
  (knn_rejection_threshold [⟨[0], "Tiger"⟩] 3 [2] (by norm_num) (by simp) (by simp)).1
    (by
      intro ex hex
      simp only [List.mem_singleton] at hex
      subst hex
      have hz : List.zip [(2:ℝ)] [(0:ℝ)] = [((2:ℝ), (0:ℝ))] := rfl
      have h4 : euclideanDistance [(2:ℝ)] [(0:ℝ)] = 2 := by
        rw [euclideanDistance, hz]
        simp only [List.map_cons, List.map_nil, List.sum_cons, List.sum_nil]
        rw [show ((2:ℝ) - 0) * ((2:ℝ) - 0) + 0 = 2 ^ 2 by ring]
        exact Real.sqrt_sq (by norm_num)
      rw [h4]
      norm_num)

theorem length_bind_three (f g h : Landmark → ℝ) (l : List Landmark) :
    (l.flatMap (fun lm => [f lm, g lm, h lm])).length = 3 * l.length := by
  induction l with
  | nil => rfl
  | cons a t ih =>
    simp only [List.flatMap_cons, List.length_append, ih, List.length_cons]
    simp
    ring

/-- C9: when the wrist and the middle-finger base are closer than `1e-4`
(including exactly coincident), the substituted scale is `1.0`, so every
output component is exactly the finite coordinate difference (no division
by a vanishing scale, hence no `NaN`/`Infinity`), the output has
`3 × 21 = 63` components, and the empty input yields the empty output. -/
theorem normalizeHand_degenerate (landmarks : List Landmark)
    (h21 : landmarks.length = 21) (hdeg : handSpan landmarks < 0.0001) :
    normalizeHand landmarks =
      landmarks.flatMap (fun lm => [lm.x - landmarks.headI.x,
        lm.y - landmarks.headI.y, lm.z - landmarks.headI.z]) ∧
    (normalizeHand landmarks).length = 63 ∧
    normalizeHand [] = [] := by
  have hne : ¬ landmarks.length = 0 := by omega
  have hmain : normalizeHand landmarks =
      landmarks.flatMap (fun lm => [lm.x - landmarks.headI.x,
        lm.y - landmarks.headI.y, lm.z - landmarks.headI.z]) := by
    have h1 : (1.0 : ℝ) = 1 := by norm_num
    simp only [normalizeHand, if_neg hne, if_pos hdeg, h1, div_one]
  refine ⟨hmain, ?_, by simp [normalizeHand]⟩
  rw [hmain, length_bind_three, h21]

/-- C9 witness: 21 coincident landmarks at the origin — the wrist-to-middle
distance is 0, the scale is substituted by 1, and the output is the 63
zero differences. -/
theorem normalizeHand_degenerate_witness :
    normalizeHand (List.replicate 21 ⟨0, 0, 0⟩) =
      (List.replicate 21 (⟨0, 0, 0⟩ : Landmark)).flatMap
        (fun lm => [lm.x - (List.replicate 21 (⟨0, 0, 0⟩ : Landmark)).headI.x,
          lm.y - (List.replicate 21 (⟨0, 0, 0⟩ : Landmark)).headI.y,
          lm.z - (List.replicate 21 (⟨0, 0, 0⟩ : Landmark)).headI.z]) ∧
    (normalizeHand (List.replicate 21 ⟨0, 0, 0⟩)).length = 63 ∧
    normalizeHand [] = [] :=
  normalizeHand_degenerate (List.replicate 21 ⟨0, 0, 0⟩) (by simp)
    (by
      have hspan : handSpan (List.replicate 21 ⟨0, 0, 0⟩) =
          Real.sqrt (((0:ℝ) - 0) ^ 2 + ((0:ℝ) - 0) ^ 2 + ((0:ℝ) - 0) ^ 2) := rfl
      rw [hspan]
      norm_num)

/-! ### NMS idempotence -/

theorem greedyKeep_sublist_bounded (t : ℚ) : ∀ (n : ℕ) (l : List Candidate),
    l.length ≤ n → List.Sublist (greedyKeep t l) l := by
  intro n
  induction n with
  | zero =>
    intro l hl
    rw [List.length_eq_zero.1 (Nat.le_zero.1 hl)]
    simp [greedyKeep]
  | succ n ih =>
    intro l hl
    match l with
    | [] => simp [greedyKeep]
    | c :: rest =>
      rw [greedyKeep]
      refine List.Sublist.cons₂ c ?_
      have h1 : (rest.filter fun b => iouLe c.box b.box t).length ≤ n :=
        le_trans (List.length_filter_le _ _) (by simpa using hl)
      exact (ih _ h1).trans (List.filter_sublist rest)

theorem greedyKeep_sublist (t : ℚ) (l : List Candidate) :
    List.Sublist (greedyKeep t l) l :=
  greedyKeep_sublist_bounded t l.length l le_rfl

/-- Every kept candidate has a passing IoU test against every
earlier-kept candidate. -/
theorem greedyKeep_pairwise_bounded (t : ℚ) : ∀ (n : ℕ) (l : List Candidate),
    l.length ≤ n →
    List.Pairwise (fun a b => iouLe a.box b.box t = true) (greedyKeep t l) := by
  intro n
  induction n with
  | zero =>
    intro l hl
    rw [List.length_eq_zero.1 (Nat.le_zero.1 hl)]
    simp [greedyKeep]
  | succ n ih =>
    intro l hl
    match l with
    | [] => simp [greedyKeep]
    | c :: rest =>
      rw [greedyKeep]
      have h1 : (rest.filter fun b => iouLe c.box b.box t).length ≤ n :=
        le_trans (List.length_filter_le _ _) (by simpa using hl)
      refine List.pairwise_cons.2 ⟨?_, ih _ h1⟩
      intro b hb
      have hbf : b ∈ rest.filter fun b => iouLe c.box b.box t :=
        (greedyKeep_sublist t _).mem hb
      exact List.of_mem_filter (p := fun (b : Candidate) => iouLe c.box b.box t) hbf

theorem greedyKeep_pairwise (t : ℚ) (l : List Candidate) :
    List.Pairwise (fun a b => iouLe a.box b.box t = true) (greedyKeep t l) :=
  greedyKeep_pairwise_bounded t l.length l le_rfl

/-- On a list already pairwise-compatible, the greedy loop keeps everything
in order. -/
theorem greedyKeep_of_pairwise_bounded (t : ℚ) : ∀ (n : ℕ) (l : List Candidate),
    l.length ≤ n →
    List.Pairwise (fun a b => iouLe a.box b.box t = true) l →
    greedyKeep t l = l := by
  intro n
  induction n with
  | zero =>
    intro l hl _
    rw [List.length_eq_zero.1 (Nat.le_zero.1 hl)]
    simp [greedyKeep]
  | succ n ih =>
    intro l hl hp
    match l with
    | [] => simp [greedyKeep]
    | c :: rest =>
      obtain ⟨hhead, htail⟩ := List.pairwise_cons.1 hp
      have hf : rest.filter (fun b => iouLe c.box b.box t) = rest :=
        List.filter_eq_self.2 hhead
      rw [greedyKeep, hf]
      have h1 : rest.length ≤ n := by simpa using hl
      rw [ih rest h1 htail]

/-- C8: NMS is idempotent.  The kept list is still sorted descending by
score (it is a sublist of the sorted input, so the stable re-sort leaves it
alone), and every kept box passes the IoU test against every earlier-kept
box, so the greedy pass keeps everything in the same order. -/
theorem nms_idempotent (t : ℚ) (l : List Candidate) :
    nms t (nms t l) = nms t l := by
  have hsorted : List.Sorted candGe (nms t l) := by
    have hs : List.Sorted candGe (sortByScoreDesc l) :=
      List.sorted_insertionSort candGe l
    exact List.Pairwise.sublist (greedyKeep_sublist t _) hs
  have hresort : sortByScoreDesc (nms t l) = nms t l :=
    List.Sorted.insertionSort_eq hsorted
  rw [nms, hresort]
  exact greedyKeep_of_pairwise_bounded t (nms t l).length (nms t l) le_rfl
    (greedyKeep_pairwise t _)

/-- C3 counterexample: two coincident zero-area boxes.  Intersection,
both areas and hence the union are all `0`, so the unguarded source
division computes `0/0 = NaN` (modelled `none`) — not the `0` the claim
asserts. -/
theorem iou_two_degenerate_boxes_nan :
    calculateIoU ⟨0, 0, 0, 0⟩ ⟨0, 0, 0, 0⟩ = none := by
  norm_num [calculateIoU]

theorem calculateIoU_inter_zero (A B : Box)
    (hinter : max 0 (min (A.x + A.w) (B.x + B.w) - max A.x B.x) *
      max 0 (min (A.y + A.h) (B.y + B.h) - max A.y B.y) = 0)
    (hden : A.w * A.h + B.w * B.h ≠ 0) :
    calculateIoU A B = some 0 := by
  simp only [calculateIoU, hinter, sub_zero]
  rw [if_neg hden, zero_div]

/-- C3 (amended): when exactly one box of the pair is degenerate (zero
width or height, the other of positive area), the intersection is empty
and the union positive, so the IoU is `0` in both argument orders; but
when both boxes are degenerate the union area is `0` and the division
produces a non-finite value (see the counterexample), as the source has no
explicit division-by-zero guard. -/
theorem iou_one_degenerate_box (A B : Box) (hA0 : A.w * A.h = 0)
    (hB : 0 < B.w * B.h) :
    calculateIoU A B = some 0 ∧ calculateIoU B A = some 0 := by
  have hden : A.w * A.h + B.w * B.h ≠ 0 := by rw [hA0, zero_add]; exact ne_of_gt hB
  have hden2 : B.w * B.h + A.w * A.h ≠ 0 := by rw [hA0, add_zero]; exact ne_of_gt hB
  rcases mul_eq_zero.1 hA0 with hw | hh
  · have h1 : min (A.x + A.w) (B.x + B.w) - max A.x B.x ≤ 0 :=
      sub_nonpos.2 (le_trans (min_le_left _ _)
        (by rw [hw, add_zero]; exact le_max_left _ _))
    have h2 : min (B.x + B.w) (A.x + A.w) - max B.x A.x ≤ 0 :=
      sub_nonpos.2 (le_trans (min_le_right _ _)
        (by rw [hw, add_zero]; exact le_max_right _ _))
    exact ⟨calculateIoU_inter_zero A B (by rw [max_eq_left h1, zero_mul]) hden,
      calculateIoU_inter_zero B A (by rw [max_eq_left h2, zero_mul]) hden2⟩
  · have h1 : min (A.y + A.h) (B.y + B.h) - max A.y B.y ≤ 0 :=
      sub_nonpos.2 (le_trans (min_le_left _ _)
        (by rw [hh, add_zero]; exact le_max_left _ _))
    have h2 : min (B.y + B.h) (A.y + A.h) - max B.y A.y ≤ 0 :=
      sub_nonpos.2 (le_trans (min_le_right _ _)
        (by rw [hh, add_zero]; exact le_max_right _ _))
    exact ⟨calculateIoU_inter_zero A B (by rw [max_eq_left h1, mul_zero]) hden,
      calculateIoU_inter_zero B A (by rw [max_eq_left h2, mul_zero]) hden2⟩

/-- C3 witness: a zero-width box against a 2×3 box, both orders give
IoU `0`. -/
theorem iou_one_degenerate_box_witness :
    calculateIoU ⟨0, 0, 0, 5⟩ ⟨0, 0, 2, 3⟩ = some 0 ∧
    calculateIoU ⟨0, 0, 2, 3⟩ ⟨0, 0, 0, 5⟩ = some 0 :=
  iou_one_degenerate_box ⟨0, 0, 0, 5⟩ ⟨0, 0, 2, 3⟩ (by norm_num) (by norm_num)

theorem foldl_fixed_of_mem {α : Type} {β : Type} (f : α → β → α) (l : List β)
    (a : α) (h : ∀ (acc : α), ∀ x ∈ l, f acc x = acc) : l.foldl f a = a := by
  induction l generalizing a with
  | nil => rfl
  | cons x xs ih =>
    rw [List.foldl_cons, h a x (List.mem_cons_self _ _)]
    exact ih a (fun acc y hy => h acc y (List.mem_cons_of_mem _ hy))

/-- With no in-range class-score read (the array is too short to reach the
class channels, which start at index `4 * numAnchors`), the per-anchor scan
never finds a score: every comparison against `undefined` is false. -/
theorem anchorScan_short (output : List ℚ) (i : ℕ)
    (hlen : output.length ≤ 4 * numAnchors) :
    anchorScan output i = .negInf := by
  rw [anchorScan]
  apply foldl_fixed_of_mem
  intro acc c _
  have hidx : output.length ≤ (4 + c) * numAnchors + i := by
    have h1 : 4 * numAnchors ≤ (4 + c) * numAnchors :=
      Nat.mul_le_mul_right numAnchors (Nat.le_add_right 4 c)
    omega
  have hnone : output[(4 + c) * numAnchors + i]? = none :=
    List.getElem?_eq_none hidx
  simp [hnone, scoreBeats]

/-- No input-shape validation exists in `postprocess`: an array too short
to hold any class score decodes, without error, to the empty detection
list. -/
theorem postprocess_short_input (output : List ℚ)
    (imgWidth imgHeight confThreshold iouThreshold : ℚ)
    (hlen : output.length ≤ 4 * numAnchors) :
    postprocess output imgWidth imgHeight confThreshold iouThreshold = [] := by
  have hcands : candidatesOf output imgWidth imgHeight confThreshold = [] := by
    rw [candidatesOf, List.filterMap_eq_nil_iff]
    intro i _
    rw [anchorScan_short output i hlen]
  rw [postprocess, hcands]
  simp [nms, sortByScoreDesc, greedyKeep]

/-- C2 counterexample: the empty array has a malformed length
(`0 ≠ (4 + 12) * 8400`), yet `postprocess` returns an ordinary (empty)
detection list for that call — there is no `InvalidInputShape` (or any
other) error path in the function. -/
theorem postprocess_empty_input_no_error :
    postprocess [] 640 640 (1/2) (9/20) = [] :=
  postprocess_short_input [] 640 640 (1/2) (9/20) (by norm_num [numAnchors])

/-- C2 (amended): `postprocess` never validates the input length against
`(4 + C) * A`.  A malformed array is decoded anyway: out-of-range reads
behave as JavaScript `undefined`, which never wins a score comparison, so
an array too short to reach the class channels (length at most
`4 * 8400`) silently yields the empty detection list instead of failing,
and longer arrays are silently truncated to the assumed layout. -/
theorem postprocess_no_shape_validation (output : List ℚ)
    (imgWidth imgHeight confThreshold iouThreshold : ℚ)
    (hlen : output.length ≤ 4 * numAnchors) :
    postprocess output imgWidth imgHeight confThreshold iouThreshold = [] :=
  postprocess_short_input output imgWidth imgHeight confThreshold iouThreshold hlen

/-- C2 witness: a 16-element wrong-length array (two anchors' worth of
nothing) decodes without error to no detections. -/
theorem postprocess_no_shape_validation_witness :
    postprocess [1, 1, 1, 1, 1, 1, 1, 1, 1, 1, 1, 1, 1, 1, 1, 1]
      320 320 (3/10) (1/2) = [] :=
  postprocess_no_shape_validation [1, 1, 1, 1, 1, 1, 1, 1, 1, 1, 1, 1, 1, 1, 1, 1]
    320 320 (3/10) (1/2) (by norm_num [numAnchors])
